import Mathlib

/-!
Verification of `tiny-lib` (header-only C++ utilities) against its
natural-language specification, via a shallow embedding in Lean 4.

Components embedded here:
* `Util::FifoMultiThreaded` (src/FifoMultiThreaded.hpp) — a mutex-guarded
  FIFO queue.  Every operation holds the single recursive mutex for its full
  duration, so any concurrent history is equivalent to a sequential trace of
  atomic operations; the embedding is therefore a sequential trace semantics
  over a `List` model of `std::queue`.
* `Util::CallbackWithTimeout` (src/CallbackWithTimeout.hpp) — a one-thread
  recurring callback executor.  The worker's loops are embedded as functions
  parameterised by the schedule of reads of the atomic `execute_` flag; the
  owner-side `start`/`stop`/destructor sequence is embedded as a state
  machine in which `join` removes the live worker (the worker is guaranteed
  to exit after the flag is cleared, because it re-checks the flag at every
  iteration and sleep-slice boundary).
* `Util::ILogProvider::setLevel(const std::string&)` (src/ILogProvider.hpp).
* `Util::Log4CppLoggerProvider::setLevel(int)` / `start`
  (src/Log4CppLoggerProvider.hpp); the log4cpp root priority is state.
* `Util::RapidJsonProvider` (src/RapidJsonProvider.hpp); `std::string` is
  modelled as `List Char`, the parsed JSON document as an inductive tree.
-/

namespace TinyLib

/-! ## FifoMultiThreaded (src/FifoMultiThreaded.hpp) -/

/-- The queue state: `queue_ : std::queue<T>` with the front of the C++
queue at the head of the list.  The mutex is not represented: every method
holds it for its whole body, so methods are atomic. -/
structure Fifo (α : Type) where
  queue : List α

/-- `FifoMultiThreaded()` — default construction leaves `queue_` empty. -/
def Fifo.new (α : Type) : Fifo α := ⟨[]⟩

/-- `bool push(const T&)`: appends the element at the back and returns
`true` unconditionally. -/
def Fifo.push (s : Fifo α) (element : α) : Bool × Fifo α :=
  (true, ⟨s.queue ++ [element]⟩)

/-- `bool pop(T&)`: if the queue is non-empty, copies the front into the
out-parameter `element`, removes it and returns `true`; otherwise returns
`false` leaving the out-parameter and the queue unchanged.  The result is
`(status, element-after-the-call, queue-after-the-call)`. -/
def Fifo.pop (s : Fifo α) (element : α) : Bool × α × Fifo α :=
  match s.queue with
  | [] => (false, element, s)
  | x :: rest => (true, x, ⟨rest⟩)

/-- `bool empty() const`. -/
def Fifo.isEmpty (s : Fifo α) : Bool := s.queue.isEmpty

/-- `unsigned long long size() const`. -/
def Fifo.size (s : Fifo α) : Nat := s.queue.length

/-- One atomic operation of a trace on the queue.  Since every method holds
the same mutex, an arbitrary concurrent history linearises into such a
trace. -/
inductive FifoOp (α : Type) where
  | push (x : α)
  | pop

/-- Whether a trace element is a push. -/
def FifoOp.isPush : FifoOp α → Bool
  | .push _ => true
  | .pop => false

/-- Run a trace of operations from state `s`.  `d` is the prior value of the
consumer's out-variable handed to each `pop` call.  Returns the final state,
the list of items pushed (in push order) and the list of items returned by
successful pops (in pop order). -/
def runFifo (d : α) : List (FifoOp α) → Fifo α → Fifo α × List α × List α
  | [], s => (s, [], [])
  | .push x :: rest, s =>
    let r := Fifo.push s x
    let t := runFifo d rest r.2
    (t.1, x :: t.2.1, t.2.2)
  | .pop :: rest, s =>
    let r := Fifo.pop s d
    let t := runFifo d rest r.2.2
    (t.1, t.2.1, if r.1 then r.2.1 :: t.2.2 else t.2.2)

/-! ## CallbackWithTimeout (src/CallbackWithTimeout.hpp)

The worker lambda is
```
while (execute_.load) { callback(param);
  const long timeSliceMilliseconds(25);
  const long long maxSteps = timeoutMilliseconds / timeSliceMilliseconds;
  long step(0);
  while (execute_.load && step++ < maxSteps) sleep_for(25ms); }
```
Each load of the atomic flag is modelled by `execute k` where `k` numbers
the loads in program order on the worker thread. -/

/-- `const long timeSliceMilliseconds(25)`. -/
def timeSliceMilliseconds : Int := 25

/-- `maxSteps = timeoutMilliseconds / timeSliceMilliseconds` — C++ signed
integer division truncates toward zero, which is `Int.div`. -/
def maxStepsFor (timeoutMilliseconds : Int) : Int :=
  Int.tdiv timeoutMilliseconds timeSliceMilliseconds

/-- The inner sleep loop, from flag-load number `k` with loop counter
`step`.  Returns (milliseconds slept, next flag-load number).  The C++
`step++` also increments on the final failing comparison; the final value of
the local `step` is dead, so it is not returned. -/
def sleepLoopK (execute : Nat → Bool) (maxSteps : Int) (step : Int) (k : Nat) :
    Nat × Nat :=
  if h : execute k = true ∧ step < maxSteps then
    let r := sleepLoopK execute maxSteps (step + 1) (k + 1)
    (timeSliceMilliseconds.toNat + r.1, r.2)
  else (0, k + 1)
termination_by (maxSteps - step).toNat
decreasing_by omega

/-- The outer worker loop observed for `n` iterations of its `while` check
(the real loop runs until a flag load returns `false`; `n` bounds the
observation window).  Returns the number of callback invocations.  Each
iteration: load flag (stop if clear), invoke the callback, run the inner
sleep loop. -/
def workerLoop (execute : Nat → Bool) (timeoutMilliseconds : Int) (k : Nat) :
    Nat → Nat
  | 0 => 0
  | n + 1 =>
    if execute k then
      let r := sleepLoopK execute (maxStepsFor timeoutMilliseconds) 0 (k + 1)
      1 + workerLoop execute timeoutMilliseconds r.2 n
    else 0

/-- Owner-side state of one `CallbackWithTimeout` instance.
`execute` is the `execute_` atomic flag; `thread` records whether `thread_`
holds a joinable (spawned, not yet joined) thread; `leaked` counts worker
threads abandoned by overwriting a still-joinable handle (in C++ that is
`std::terminate`, i.e. a leaked/killed worker — the spec requires it never
happens). -/
structure ExecState where
  execute : Bool
  thread : Bool
  leaked : Nat

/-- The constructor: `execute_(false)`, default-constructed (non-joinable)
`thread_`. -/
def ExecState.init : ExecState := ⟨false, false, 0⟩

/-- `stop()`: stores `false` to the flag, then joins if joinable.  `join`
returns only once the worker has exited (the worker re-checks the flag at
every outer-iteration and sleep-slice boundary, so it does exit), leaving
the handle non-joinable. -/
def execStop (s : ExecState) : ExecState :=
  { s with execute := false, thread := false }

/-- `start(timeout, callback, param)`: if the flag is set, a full `stop()`
first; then store `true` to the flag; then `thread_ = std::thread(...)`,
which spawns one new worker and would abandon the previous one if the
handle were still joinable. -/
def execStart (s : ExecState) : ExecState :=
  let s1 := if s.execute then execStop s else s
  let s2 : ExecState := { s1 with execute := true }
  { s2 with
    thread := true
    leaked := s2.leaked + (if s2.thread then 1 else 0) }

/-- The destructor: `if (execute_.load()) stop();`. -/
def execDestruct (s : ExecState) : ExecState :=
  if s.execute then execStop s else s

/-- Owner-side operations (performed by the single owning thread; the spec
declares concurrent `start`/`stop` from several threads undefined). -/
inductive ExecOp where
  | start
  | stop
  | destruct

/-- Run a sequence of owner-side operations. -/
def runExec : List ExecOp → ExecState → ExecState
  | [], s => s
  | .start :: rest, s => runExec rest (execStart s)
  | .stop :: rest, s => runExec rest (execStop s)
  | .destruct :: rest, s => runExec rest (execDestruct s)

/-- Number of live (spawned, not yet joined) worker threads of the
instance: the one held by `thread_`, if any, plus any abandoned ones. -/
def ExecState.liveWorkers (s : ExecState) : Nat :=
  (if s.thread then 1 else 0) + s.leaked

/-! ## ILogProvider (src/ILogProvider.hpp) -/

namespace Literals

def allTag : String := "all"

def traceTag : String := "trace"

def debugTag : String := "debug"

def infoTag : String := "info"

def warnTag : String := "warn"

def errorTag : String := "error"

def fatalTag : String := "fatal"

def offTag : String := "off"

end Literals

def LL_ALL : Int := 0x7F

def LL_TRACE : Int := 0x3F

def LL_DEBUG : Int := 0x1F

def LL_INFO : Int := 0xF

def LL_WARN : Int := 0x7

def LL_ERROR : Int := 0x3

def LL_FATAL : Int := 0x1

def LL_OFF : Int := 0x0

/-- `ILogProvider::setLevel(const std::string&)`: `intLevel` starts at
`LL_ALL` and is overwritten by the matching tag's level (via
`std::string::compare == 0`, i.e. exact case-sensitive equality), then
passed to the virtual `setLevel(int)`, here abstracted as the function
argument `setLevelInt`. -/
def setLevelString (setLevelInt : Int → Bool) (level : String) : Bool :=
  let intLevel : Int :=
    if level = Literals.traceTag then LL_TRACE
    else if level = Literals.debugTag then LL_DEBUG
    else if level = Literals.infoTag then LL_INFO
    else if level = Literals.warnTag then LL_WARN
    else if level = Literals.errorTag then LL_ERROR
    else if level = Literals.fatalTag then LL_FATAL
    else if level = Literals.offTag then LL_OFF
    else LL_ALL
  setLevelInt intLevel

/-! ## Log4CppLoggerProvider (src/Log4CppLoggerProvider.hpp) -/

/-- The log4cpp priorities this adapter mentions. -/
inductive Priority where
  | NOTSET
  | DEBUG
  | INFO
  | WARN
  | ERROR
  | FATAL
deriving DecidableEq

/-- Provider state plus the external log4cpp root category it drives.
`rootPriorityWrites` counts calls to `log4cpp::Category::setRootPriority`,
so "the call never happens" is visible as an unchanged counter. -/
structure Log4CppState where
  started : Bool
  rootPriority : Priority
  rootPriorityWrites : Nat
deriving DecidableEq

/-- The `switch (level)` in `setLevel(int)`: `log4cppPriority` starts at
`NOTSET`; only the five listed `LogLevel` values change it. -/
def log4cppPriorityOf (level : Int) : Priority :=
  if level = LL_DEBUG then .DEBUG
  else if level = LL_INFO then .INFO
  else if level = LL_WARN then .WARN
  else if level = LL_ERROR then .ERROR
  else if level = LL_FATAL then .FATAL
  else .NOTSET

/-- `Log4CppLoggerProvider::setLevel(int)`, translated branch by branch:
a first `if (!started_)` returns `false`; the switch computes the
priority; a second `if (!started_)` guards the actual
`setRootPriority` call (modelled as the state update); finally `true` is
returned.  The exception path inside the guarded block is not modelled —
on every run reaching it the branch condition is already false. -/
def log4cppSetLevel (s : Log4CppState) (level : Int) : Bool × Log4CppState :=
  if !s.started then (false, s)
  else
    let prio := log4cppPriorityOf level
    if !s.started then
      (true, { s with
                rootPriority := prio
                rootPriorityWrites := s.rootPriorityWrites + 1 })
    else (true, s)

/-- `Log4CppLoggerProvider::start()`: if not started, configure log4cpp
(`configureOk` abstracts whether `PropertyConfigurator::configure` throws),
set `started_` on success; returns `started_`. -/
def log4cppStart (configureOk : Bool) (s : Log4CppState) :
    Bool × Log4CppState :=
  if !s.started then
    if configureOk then (true, { s with started := true }) else (false, s)
  else (true, s)

/-! ## RapidJsonProvider (src/RapidJsonProvider.hpp)

`std::string` is modelled as `List Char`.  The parsed `rapidjson::Document`
is modelled as a tree: string values, objects (ordered member lists, first
match wins on lookup, as in `FindMember`), and `other` for every other
value kind (number, array, bool, null).  `HasMember` on a non-object is a
rapidjson precondition violation; it is modelled as `false` (no member). -/

/-- A parsed JSON value. -/
inductive JsonValue where
  | str : List Char → JsonValue
  | obj : List (List Char × JsonValue) → JsonValue
  | other : JsonValue

/-- `value.IsString()`. -/
def JsonValue.isString : JsonValue → Bool
  | .str _ => true
  | _ => false

/-- `value.IsObject()`. -/
def JsonValue.isObject : JsonValue → Bool
  | .obj _ => true
  | _ => false

/-- `value.GetString()` (only called on strings; empty otherwise). -/
def JsonValue.getString : JsonValue → List Char
  | .str s => s
  | _ => []

/-- `value.HasMember(name)`. -/
def JsonValue.hasMember : JsonValue → List Char → Bool
  | .obj fields, name => fields.any (fun p => p.1 == name)
  | _, _ => false

/-- `value[name]` — the first member with that name. -/
def JsonValue.getMember : JsonValue → List Char → JsonValue
  | .obj fields, name =>
    match fields.find? (fun p => p.1 == name) with
    | some p => p.2
    | none => .other
  | _, _ => .other

/-- `std::getline(strStream, keyLevel, delim)` tokenization, accumulator
style: `acc` holds the current token reversed.  `getline` fails (producing
no token) exactly when it reads nothing and is already at end of stream, so
a trailing delimiter yields no trailing empty token, while end of input
flushes the current token. -/
def goTok : List Char → List Char → List (List Char)
  | [], acc => [acc.reverse]
  | c :: rest, acc =>
    if c = '/' then
      acc.reverse :: (match rest with
        | [] => []
        | _ :: _ => goTok rest [])
    else goTok rest (c :: acc)

/-- All tokens `std::getline` with delimiter `/` produces from the stream. -/
def getlineTokens : List Char → List (List Char)
  | [] => []
  | s => goTok s []

/-- The `keyLevels` vector: non-empty tokens of the key; if that leaves
nothing, the whole key is pushed as the single level. -/
def keyLevelsOf (key : List Char) : List (List Char) :=
  let toks := (getlineTokens key).filter (fun t => !t.isEmpty)
  if toks.isEmpty then [key] else toks

/-- The `for (index = 1; ...)` loop of `getValue`: walks the remaining key
levels, extending `parsedKey` by `"/" + keyLevel` each iteration; stops
early on a string value or a missing member.  Returns the final
`(value, parsedKey)`. -/
def traverseLevels : JsonValue → List Char → List (List Char) →
    JsonValue × List Char
  | value, parsedKey, [] => (value, parsedKey)
  | value, parsedKey, seg :: rest =>
    let parsedKey2 := parsedKey ++ '/' :: seg
    if value.hasMember seg then
      let v2 := value.getMember seg
      if v2.isString then (v2, parsedKey2)
      else traverseLevels v2 parsedKey2 rest
    else (value, parsedKey2)

namespace RapidJsonProvider

/-- `RapidJsonProvider::getValue(key, values)`: `values` is cleared on
entry, so the returned list is rebuilt from empty.  `initialized` is the
`initialized_` member (whether the constructor parsed the JSON text).
Returns (status, final contents of `values`). -/
def getValue (initialized : Bool) (doc : JsonValue) (key : List Char) :
    Bool × List (List Char) :=
  if initialized && !key.isEmpty then
    match keyLevelsOf key with
    | [] => (false, [])
    | k0 :: rest =>
      if doc.hasMember k0 then
        let v0 := doc.getMember k0
        let vr :=
          if v0.isObject && !rest.isEmpty then traverseLevels v0 k0 rest
          else (v0, k0)
        if vr.1.isString && vr.2 == key then (true, [vr.1.getString])
        else (false, [])
      else (false, [])
  else (false, [])

/-- `struct KeyValuePair` from src/IPairWrittable.hpp. -/
structure KeyValuePair where
  key : List Char
  value : List Char

/-- `RapidJsonProvider::getKeyValue`: `return false;` — the out-parameter
is not touched. -/
def getKeyValue (doc : JsonValue) (key : List Char)
    (values : List KeyValuePair) : Bool × List KeyValuePair :=
  (false, values)

/-- `RapidJsonProvider::setValue`: `return false;`. -/
def setValue (doc : JsonValue) (key value : List Char) : Bool :=
  false

end RapidJsonProvider

/-- `keyLevels[0] ++ "/" ++ keyLevels[1] ++ ... ` — the tail part, each
segment preceded by one `/`. -/
def slashJoinTail : List (List Char) → List Char
  | [] => []
  | t :: ts => ('/' :: t) ++ slashJoinTail ts

/-- Join segments with single `/` separators (the shape `parsedKey` has
after processing some prefix of `keyLevels`). -/
def joinSegs : List (List Char) → List Char
  | [] => []
  | t :: ts => t ++ slashJoinTail ts

end TinyLib

namespace TinyLib

/-! ## FIFO trace lemmas and claims -/

/-- Trace invariant: the items popped so far followed by the remaining queue
contents equal the initial queue contents followed by the items pushed. -/
theorem runFifo_popped_append_queue (d : α) (ops : List (FifoOp α)) :
    ∀ s : Fifo α,
      (runFifo d ops s).2.2 ++ (runFifo d ops s).1.queue
        = s.queue ++ (runFifo d ops s).2.1 := by
  induction ops with
  | nil => intro s; simp [runFifo]
  | cons op rest ih =>
    intro s
    cases op with
    | push x =>
      simp only [runFifo, Fifo.push]
      rw [ih]
      simp
    | pop =>
      cases hq : s.queue with
      | nil =>
        have h := ih s
        simp only [runFifo, Fifo.pop, hq]
        simpa [hq] using h
      | cons x tail =>
        have h := ih ⟨tail⟩
        simp only [runFifo, Fifo.pop, hq]
        simpa [hq] using h

/-- Number of successful pops never exceeds number of pushes plus what was
already in the queue. -/
theorem runFifo_popped_length (d : α) (ops : List (FifoOp α)) (s : Fifo α) :
    (runFifo d ops s).2.2.length + (runFifo d ops s).1.queue.length
      = s.queue.length + (runFifo d ops s).2.1.length := by
  have h := congrArg List.length (runFifo_popped_append_queue d ops s)
  simpa using h

/-- Every push in a trace is recorded: the pushed-items list has one entry
per push operation. -/
theorem runFifo_pushed_length (d : α) (ops : List (FifoOp α)) :
    ∀ s : Fifo α,
      (runFifo d ops s).2.1.length = (ops.filter FifoOp.isPush).length := by
  induction ops with
  | nil => intro s; simp [runFifo]
  | cons op rest ih =>
    intro s
    cases op with
    | push x =>
      simp [runFifo, Fifo.push, List.filter_cons, FifoOp.isPush, ih]
    | pop =>
      cases hq : s.queue with
      | nil => simp [runFifo, Fifo.pop, hq, List.filter_cons, FifoOp.isPush, ih]
      | cons x tail =>
        simp [runFifo, Fifo.pop, hq, List.filter_cons, FifoOp.isPush, ih]

/-- C1: For every sequence of push and pop operations on one
`FifoMultiThreaded` instance, the items returned by successful pops, taken
in order, are exactly a prefix of the items pushed, in push order, with no
duplication and no loss: pushed = popped ++ still-queued. -/
theorem fifo_pops_are_prefix_of_pushes (α : Type) (d : α)
    (ops : List (FifoOp α)) :
    (runFifo d ops (Fifo.new α)).2.1
      = (runFifo d ops (Fifo.new α)).2.2
          ++ (runFifo d ops (Fifo.new α)).1.queue := by
  have h := runFifo_popped_append_queue d ops (Fifo.new α)
  simpa [Fifo.new] using h.symm

/-- C5: `pop` on an empty queue returns failure and leaves the out-parameter
and the queue unchanged; a freshly constructed queue has `size() = 0` and
`empty() = true`. -/
theorem fifo_empty_pop_and_fresh_state (α : Type) (out : α) :
    Fifo.pop (Fifo.new α) out = (false, out, Fifo.new α)
      ∧ Fifo.size (Fifo.new α) = 0
      ∧ Fifo.isEmpty (Fifo.new α) = true := by
  refine ⟨?_, rfl, rfl⟩
  simp [Fifo.pop, Fifo.new]

/-- C6: push always succeeds (returns `true`); in any trace from an empty
queue, writing `k` for the number of pushes (all successful) and `j` for the
number of successful pops, `j ≤ k` and the final `size()` is `k − j`. -/
theorem fifo_size_consistency (α : Type) (d : α) (ops : List (FifoOp α)) :
    (∀ (s : Fifo α) (x : α), (Fifo.push s x).1 = true)
      ∧ (runFifo d ops (Fifo.new α)).2.1.length
          = (ops.filter FifoOp.isPush).length
      ∧ (runFifo d ops (Fifo.new α)).2.2.length
          ≤ (runFifo d ops (Fifo.new α)).2.1.length
      ∧ Fifo.size (runFifo d ops (Fifo.new α)).1
          = (runFifo d ops (Fifo.new α)).2.1.length
            - (runFifo d ops (Fifo.new α)).2.2.length := by
  have h := runFifo_popped_length d ops (Fifo.new α)
  have h0 : (Fifo.new α).queue.length = 0 := rfl
  refine ⟨fun s x => rfl, runFifo_pushed_length d ops (Fifo.new α), by omega, ?_⟩
  simp only [Fifo.size]
  omega

/-! ## Executor state machine lemmas and claims -/

/-- Invariant of the owner-side state machine: no worker was ever leaked,
and when the flag is clear the thread handle has been joined (the only
writer that clears the flag, `stop`, joins before returning). -/
theorem runExec_preserves_inv :
    ∀ (ops : List ExecOp) (s : ExecState),
      s.leaked = 0 → (s.execute = false → s.thread = false) →
      (runExec ops s).leaked = 0
        ∧ ((runExec ops s).execute = false → (runExec ops s).thread = false) := by
  intro ops
  induction ops with
  | nil => intro s h1 h2; exact ⟨h1, h2⟩
  | cons op rest ih =>
    intro s h1 h2
    cases op with
    | start =>
      apply ih
      · by_cases he : s.execute
        · simp [execStart, execStop, he, h1]
        · have ht : s.thread = false := h2 (by simpa using he)
          simp [execStart, he, h1, ht]
      · intro h
        simp [execStart] at h
    | stop =>
      apply ih
      · simpa [execStop] using h1
      · intro h
        simp [execStop]
    | destruct =>
      apply ih
      · by_cases he : s.execute <;> simp [execDestruct, execStop, he, h1]
      · intro h
        by_cases he : s.execute
        · simp [execDestruct, execStop, he]
        · have ht : s.thread = false := h2 (by simpa using he)
          simpa [execDestruct, he] using ht

/-- Running a concatenated trace is running the pieces in order. -/
theorem runExec_append :
    ∀ (l1 l2 : List ExecOp) (s : ExecState),
      runExec (l1 ++ l2) s = runExec l2 (runExec l1 s) := by
  intro l1
  induction l1 with
  | nil => intro l2 s; rfl
  | cons op rest ih =>
    intro l2 s
    cases op <;> simp [runExec, ih]

/-- C3: in any owner-side trace from a fresh executor, no worker thread is
ever leaked and at most one worker is alive at any instant (so callback
invocations never overlap); a trace ending in `start` — including a second
`start` while running, which stops and joins the previous worker first, as
`execStart` translates from the source — leaves exactly one live worker. -/
theorem executor_at_most_one_worker (ops : List ExecOp) :
    (runExec ops ExecState.init).leaked = 0
      ∧ (runExec ops ExecState.init).liveWorkers ≤ 1
      ∧ (runExec (ops ++ [ExecOp.start]) ExecState.init).liveWorkers = 1 := by
  have h := runExec_preserves_inv ops ExecState.init rfl (fun _ => rfl)
  rw [runExec_append]
  show _ ∧ _ ∧ (runExec [ExecOp.start] (runExec ops ExecState.init)).liveWorkers = 1
  generalize runExec ops ExecState.init = s at h ⊢
  refine ⟨h.1, ?_, ?_⟩
  · cases ht : s.thread <;> simp [ExecState.liveWorkers, ht, h.1]
  · show (execStart s).liveWorkers = 1
    by_cases he : s.execute
    · simp [execStart, execStop, he, ExecState.liveWorkers, h.1]
    · have ht : s.thread = false := h.2 (by simpa using he)
      simp [execStart, he, ht, ExecState.liveWorkers, h.1]

/-! ## Worker loop lemmas and claims -/

/-- For a nonnegative interval the step bound is the Nat division by 25. -/
theorem maxStepsFor_ofNat (n : Nat) :
    maxStepsFor (n : Int) = ((n / 25 : Nat) : Int) := by
  show Int.tdiv (n : Int) timeSliceMilliseconds = _
  rw [show timeSliceMilliseconds = ((25 : Nat) : Int) from rfl]
  rw [← Int.ofNat_tdiv]

/-- If every load of the running flag returns `true`, the inner sleep loop
performs exactly `maxSteps − step` slices of 25 ms. -/
theorem sleepLoopK_all_true (execute : Nat → Bool)
    (hex : ∀ i, execute i = true) (M : Int) :
    ∀ (fuel : Nat) (step : Int) (k : Nat), (M - step).toNat = fuel →
      (sleepLoopK execute M step k).1 = 25 * fuel := by
  intro fuel
  induction fuel with
  | zero =>
    intro step k hf
    have hc : ¬(execute k = true ∧ step < M) := by
      rintro ⟨-, h2⟩
      omega
    rw [sleepLoopK.eq_def, dif_neg hc]
  | succ n ih =>
    intro step k hf
    have hlt : step < M := by omega
    have hr := ih (step + 1) (k + 1) (by omega)
    rw [sleepLoopK.eq_def, dif_pos ⟨hex k, hlt⟩]
    simp only [timeSliceMilliseconds, Int.toNat_ofNat]
    omega

/-- C2 counterexample: with `intervalMillis = 10` and the running flag set
throughout, the inner loop runs `10 / 25 = 0` sleep slices, so the total
time slept between two consecutive callback invocations is `0 < 10` — not
"at least intervalMillis" as claimed. -/
theorem sleep_total_below_interval_at_10 :
    (sleepLoopK (fun _ => true) (maxStepsFor 10) 0 0).1 < 10 := by
  have h : maxStepsFor 10 = 0 := by decide
  rw [h, sleepLoopK.eq_def, dif_neg (by simp)]
  decide

/-- C2 (amended): for `intervalMillis = t > 0`, if every load of the
running flag returns `true`, the worker sleeps exactly `t / 25` full slices
of 25 ms between consecutive callback invocations, for a cumulative sleep
of `25 * (t / 25)` ms — at most `t`, more than `t − 25`, and equal to `t`
exactly when 25 divides `t` (so the cumulative sleep reaches
`intervalMillis` only for multiples of the slice). -/
theorem sleep_between_invocations_floor (execute : Nat → Bool) (t : Int)
    (k : Nat) (hex : ∀ i, execute i = true) (ht : 0 < t) :
    (sleepLoopK execute (maxStepsFor t) 0 k).1 = 25 * (t.toNat / 25)
      ∧ ((25 * (t.toNat / 25) : Nat) : Int) ≤ t
      ∧ t - 25 < ((25 * (t.toNat / 25) : Nat) : Int)
      ∧ ((25 : Int) ∣ t → ((25 * (t.toNat / 25) : Nat) : Int) = t) := by
  obtain ⟨n, rfl⟩ := Int.eq_ofNat_of_zero_le (le_of_lt ht)
  have hM := maxStepsFor_ofNat n
  have h1 := sleepLoopK_all_true execute hex (maxStepsFor (n : Int))
    (maxStepsFor (n : Int) - 0).toNat 0 k rfl
  rw [hM] at h1
  refine ⟨?_, by omega, by omega, ?_⟩
  · rw [hM, h1]
    omega
  · intro hd
    obtain ⟨c, hc⟩ := hd
    omega

/-- Witness for the amended C2 at `t = 50` (a multiple of the slice, where
the cumulative sleep reaches the interval exactly). -/
theorem sleep_between_invocations_floor_witness :
    (sleepLoopK (fun _ => true) (maxStepsFor 50) 0 0).1
        = 25 * ((50 : Int).toNat / 25)
      ∧ ((25 * ((50 : Int).toNat / 25) : Nat) : Int) = 50 := by
  have h := sleep_between_invocations_floor (fun _ => true) 50 0
    (fun i => rfl) (by decide)
  exact ⟨h.1, h.2.2.2 (by decide)⟩

/-- With `timeoutMilliseconds = 0` the outer loop invokes the callback once
per iteration with no sleep in between: `n` consecutive `true` flag loads
give `n` invocations. -/
theorem workerLoop_all_true_zero_timeout (execute : Nat → Bool)
    (hex : ∀ i, execute i = true) :
    ∀ (n k : Nat), workerLoop execute 0 k n = n := by
  intro n
  induction n with
  | zero => intro k; rfl
  | succ m ih =>
    intro k
    have hs : sleepLoopK execute (maxStepsFor 0) 0 (k + 1) = (0, k + 1 + 1) := by
      rw [sleepLoopK.eq_def, dif_neg]
      rintro ⟨-, h2⟩
      rw [show maxStepsFor 0 = 0 from rfl] at h2
      omega
    simp [workerLoop, hex k, hs, ih]
    omega

/-- C4: with `intervalMillis = 0`, `maxSteps = 0 / 25 = 0`, so the
per-iteration sleep loop executes zero sleep slices (total inter-call sleep
0, whatever the flag does), and while the flag stays set the callback is
invoked once per outer iteration — `n` iterations give `n` invocations, so
any run spanning more than one iteration has more than one invocation. -/
theorem zero_interval_back_to_back (execute execute2 : Nat → Bool)
    (n k k2 : Nat) (hex : ∀ i, execute i = true) :
    workerLoop execute 0 k n = n
      ∧ (sleepLoopK execute2 (maxStepsFor 0) 0 k2).1 = 0 := by
  refine ⟨workerLoop_all_true_zero_timeout execute hex n k, ?_⟩
  rw [sleepLoopK.eq_def, dif_neg]
  rintro ⟨-, h2⟩
  rw [show maxStepsFor 0 = 0 from rfl] at h2
  omega

/-- Witness for C4: two flag-true iterations at interval 0 give two
invocations (more than one), with zero inter-call sleep. -/
theorem zero_interval_back_to_back_witness :
    workerLoop (fun _ => true) 0 0 2 = 2
      ∧ (sleepLoopK (fun _ => true) (maxStepsFor 0) 0 0).1 = 0 :=
  zero_interval_back_to_back (fun _ => true) (fun _ => true) 2 0 0
    (fun i => rfl)

/-! ## ILogProvider claims -/

/-- C7: `setLevel(const std::string&)` maps each lowercase tag to its
numeric `LogLevel` and forwards it to the numeric `setLevel`; every other
string forwards the default `LL_ALL`. -/
theorem setLevelString_tag_mapping (setLevelInt : Int → Bool) :
    setLevelString setLevelInt "trace" = setLevelInt LL_TRACE
      ∧ setLevelString setLevelInt "debug" = setLevelInt LL_DEBUG
      ∧ setLevelString setLevelInt "info" = setLevelInt LL_INFO
      ∧ setLevelString setLevelInt "warn" = setLevelInt LL_WARN
      ∧ setLevelString setLevelInt "error" = setLevelInt LL_ERROR
      ∧ setLevelString setLevelInt "fatal" = setLevelInt LL_FATAL
      ∧ setLevelString setLevelInt "off" = setLevelInt LL_OFF
      ∧ ∀ level : String,
          level ≠ "trace" → level ≠ "debug" → level ≠ "info" →
          level ≠ "warn" → level ≠ "error" → level ≠ "fatal" →
          level ≠ "off" →
          setLevelString setLevelInt level = setLevelInt LL_ALL := by
  refine ⟨?_, ?_, ?_, ?_, ?_, ?_, ?_, ?_⟩
  · simp [setLevelString, Literals.traceTag]
  · simp [setLevelString, Literals.traceTag, Literals.debugTag]
  · simp [setLevelString, Literals.traceTag, Literals.debugTag,
      Literals.infoTag]
  · simp [setLevelString, Literals.traceTag, Literals.debugTag,
      Literals.infoTag, Literals.warnTag]
  · simp [setLevelString, Literals.traceTag, Literals.debugTag,
      Literals.infoTag, Literals.warnTag, Literals.errorTag]
  · simp [setLevelString, Literals.traceTag, Literals.debugTag,
      Literals.infoTag, Literals.warnTag, Literals.errorTag,
      Literals.fatalTag]
  · simp [setLevelString, Literals.traceTag, Literals.debugTag,
      Literals.infoTag, Literals.warnTag, Literals.errorTag,
      Literals.fatalTag, Literals.offTag]
  · intro level h1 h2 h3 h4 h5 h6 h7
    simp only [setLevelString, Literals.traceTag, Literals.debugTag,
      Literals.infoTag, Literals.warnTag, Literals.errorTag,
      Literals.fatalTag, Literals.offTag]
    rw [if_neg h1, if_neg h2, if_neg h3, if_neg h4, if_neg h5, if_neg h6,
      if_neg h7]

/-- Witness for C7 at the unrecognized string `"TRACE"` (tags are
case-sensitive): the default `LL_ALL` is forwarded. -/
theorem setLevelString_tag_mapping_witness :
    setLevelString (fun i => decide (i = LL_ALL)) "TRACE" = true := by
  have h := (setLevelString_tag_mapping
    (fun i => decide (i = LL_ALL))).2.2.2.2.2.2.2 "TRACE"
    (by decide) (by decide) (by decide) (by decide) (by decide) (by decide)
    (by decide)
  rw [h]
  decide

/-! ## Log4CppLoggerProvider claim -/

/-- C9: once `started_` is `true` (i.e. after a successful `start()`),
`setLevel(int)` returns `true` for every level value and leaves the state
— including the log4cpp root priority and the count of
`setRootPriority` calls — unchanged, because the second `!started_` guard
around the `setRootPriority` call is false. -/
theorem log4cpp_setLevel_noop_after_start (s : Log4CppState) (level : Int)
    (h : s.started = true) :
    log4cppSetLevel s level = (true, s) := by
  simp [log4cppSetLevel, h]

/-- Witness for C9: a started provider, `setLevel(LL_DEBUG)` returns `true`
and performs no root-priority write. -/
theorem log4cpp_setLevel_noop_after_start_witness :
    log4cppSetLevel ⟨true, Priority.NOTSET, 0⟩ LL_DEBUG
      = (true, ⟨true, Priority.NOTSET, 0⟩) :=
  log4cpp_setLevel_noop_after_start ⟨true, Priority.NOTSET, 0⟩ LL_DEBUG rfl

/-! ## RapidJsonProvider claims -/

/-- C8: `RapidJsonProvider::setValue` always reports failure and
`RapidJsonProvider::getKeyValue` always reports not-found (leaving its
out-parameter untouched), whatever the document contents. -/
theorem rapidjson_unsupported_operations (doc : JsonValue)
    (key value : List Char) (values : List RapidJsonProvider.KeyValuePair) :
    RapidJsonProvider.setValue doc key value = false
      ∧ RapidJsonProvider.getKeyValue doc key values = (false, values) :=
  ⟨rfl, rfl⟩

/-- Prefixing one more segment costs exactly one separator plus the
segment, so the tail-join is at most one longer than the full join. -/
theorem slashJoinTail_length_le (ts : List (List Char)) :
    (slashJoinTail ts).length ≤ 1 + (joinSegs ts).length := by
  cases ts with
  | nil => simp [slashJoinTail, joinSegs]
  | cons t ts' =>
    simp [slashJoinTail, joinSegs]
    omega

/-- `goTok` equation: a slash head with a non-empty remainder flushes the
accumulated token and restarts on the remainder. -/
theorem goTok_slash_cons (r : Char) (rs acc : List Char) :
    goTok ('/' :: r :: rs) acc = acc.reverse :: goTok (r :: rs) [] := by
  simp [goTok]

/-- `goTok` equation: a slash at end of stream flushes the accumulated
token; the next `getline` fails at end of stream, producing nothing. -/
theorem goTok_slash_nil (acc : List Char) :
    goTok ['/'] acc = [acc.reverse] := by
  simp [goTok]

/-- `goTok` equation: an ordinary character is accumulated. -/
theorem goTok_nonslash (c : Char) (rest acc : List Char) (hc : c ≠ '/') :
    goTok (c :: rest) acc = goTok rest (c :: acc) := by
  simp [goTok, hc]

/-- The length of the join of a single flushed token, kept or dropped. -/
theorem joinSegs_filter_single (acc : List Char) :
    (joinSegs ([acc.reverse].filter (fun t => !t.isEmpty))).length
      ≤ acc.length := by
  by_cases h : acc.reverse.isEmpty
  · simp [List.filter, h, joinSegs]
  · simp [List.filter, h, joinSegs, slashJoinTail]

/-- The join of the non-empty `getline` tokens of a stream is never longer
than `acc` plus the stream (dropped empty tokens can only shorten it). -/
theorem goTok_join_length :
    ∀ (s acc : List Char),
      (joinSegs ((goTok s acc).filter (fun t => !t.isEmpty))).length
        ≤ acc.length + s.length := by
  intro s
  induction s with
  | nil =>
    intro acc
    have h := joinSegs_filter_single acc
    simpa [goTok] using h
  | cons c rest ih =>
    intro acc
    by_cases hc : c = '/'
    · subst hc
      cases rest with
      | nil =>
        have h := joinSegs_filter_single acc
        rw [goTok_slash_nil]
        simp only [List.length_cons, List.length_nil]
        omega
      | cons r rs =>
        rw [goTok_slash_cons, List.filter_cons]
        by_cases h : acc.reverse.isEmpty
        · have hr := ih []
          simp only [List.length_nil, Nat.zero_add, List.length_cons] at hr
          simp only [h, Bool.not_true, Bool.false_eq_true, if_false,
            List.length_cons]
          omega
        · have hr := ih []
          have hb : (!acc.reverse.isEmpty) = true := by
            simp [h]
          rw [if_pos hb]
          have hj : (joinSegs (acc.reverse ::
              ((goTok (r :: rs) []).filter (fun t => !t.isEmpty)))).length
              = acc.length + (slashJoinTail
                  ((goTok (r :: rs) []).filter (fun t => !t.isEmpty))).length := by
            simp [joinSegs]
          have hs := slashJoinTail_length_le
            ((goTok (r :: rs) []).filter (fun t => !t.isEmpty))
          simp only [List.length_nil, Nat.zero_add, List.length_cons] at hr
          simp only [List.length_cons]
          omega
    · have hr := ih (c :: acc)
      rw [goTok_nonslash c rest acc hc]
      simp only [List.length_cons] at hr ⊢
      omega

/-- The join of the non-empty tokens of a non-empty key is at most as long
as the key itself. -/
theorem key_tokens_join_length (key : List Char) (hk : key ≠ []) :
    (joinSegs ((getlineTokens key).filter (fun t => !t.isEmpty))).length
      ≤ key.length := by
  cases key with
  | nil => exact absurd rfl hk
  | cons c rest =>
    have h := goTok_join_length (c :: rest) []
    simpa [getlineTokens] using h

/-- A proper prefix of the segment list gives a strictly shorter
tail-join: each segment contributes its separator. -/
theorem slashJoinTail_take_lt :
    ∀ (ts : List (List Char)) (m : Nat), m < ts.length →
      (slashJoinTail (ts.take m)).length < (slashJoinTail ts).length := by
  intro ts
  induction ts with
  | nil => intro m h; simp at h
  | cons t ts' ih =>
    intro m h
    cases m with
    | zero => simp [slashJoinTail]
    | succ m' =>
      have h' : m' < ts'.length := by simpa using h
      have := ih m' h'
      simp only [List.take_succ_cons, slashJoinTail, List.length_append,
        List.length_cons]
      omega

/-- The `for` loop of `getValue` leaves `parsedKey` equal to the initial
prefix extended by the slash-join of some prefix of the remaining key
levels. -/
theorem traverseLevels_parsedKey :
    ∀ (segs : List (List Char)) (v : JsonValue) (pk : List Char),
      ∃ m, m ≤ segs.length
        ∧ (traverseLevels v pk segs).2 = pk ++ slashJoinTail (segs.take m) := by
  intro segs
  induction segs with
  | nil =>
    intro v pk
    exact ⟨0, Nat.le_refl 0, by simp [traverseLevels, slashJoinTail]⟩
  | cons seg rest ih =>
    intro v pk
    by_cases hm : v.hasMember seg = true
    · by_cases hstr : (v.getMember seg).isString = true
      · refine ⟨1, by simp, ?_⟩
        simp [traverseLevels, hm, hstr, List.take_succ_cons, slashJoinTail]
      · obtain ⟨m, hm1, hm2⟩ := ih (v.getMember seg) (pk ++ '/' :: seg)
        refine ⟨m + 1, by simpa using Nat.succ_le_succ hm1, ?_⟩
        simp only [traverseLevels, hm, if_true, hstr, if_false,
          Bool.false_eq_true, List.take_succ_cons, slashJoinTail]
        rw [hm2]
        simp
    · refine ⟨1, by simp, ?_⟩
      simp [traverseLevels, hm, List.take_succ_cons, slashJoinTail]

/-- C10 counterexample to the claim as stated: the key `"/"` has a leading
slash, yet on a document with a member literally named `"/"` holding a
string, `getValue` succeeds and fills `values` — because a key with no
non-empty segments is pushed whole as a single key level. -/
theorem getValue_leading_slash_succeeds :
    RapidJsonProvider.getValue true
        (JsonValue.obj [(['/'], JsonValue.str ['x'])]) ['/']
      = (true, [['x']]) := by
  decide

/-- C10 (amended): `getValue(key, values)` can return `true` only when
either the key has at least one non-empty `/`-separated segment and the
single-`/` join of its non-empty segments is character-for-character equal
to `key`, or the key has no non-empty segment at all (it consists of
slashes only) and is then looked up whole as one literal member name; on
success `values` holds exactly one element.  In particular a key with a
leading `/`, trailing `/`, or `//` that still has a non-empty segment
always fails. -/
theorem getValue_success_wellformed_key (initialized : Bool)
    (doc : JsonValue) (key : List Char)
    (hsucc : (RapidJsonProvider.getValue initialized doc key).1 = true) :
    (RapidJsonProvider.getValue initialized doc key).2.length = 1
      ∧ ((getlineTokens key).filter (fun t => !t.isEmpty) ≠ [] →
          joinSegs ((getlineTokens key).filter (fun t => !t.isEmpty))
            = key) := by
  by_cases h0 : (initialized && !key.isEmpty) = true
  case neg =>
    rw [RapidJsonProvider.getValue, if_neg h0] at hsucc
    exact absurd hsucc (by simp)
  have hk : key ≠ [] := by
    have h := h0
    simp only [Bool.and_eq_true, Bool.not_eq_true'] at h
    simpa [List.isEmpty_iff] using h.2
  cases hkl : keyLevelsOf key with
  | nil =>
    simp only [RapidJsonProvider.getValue, if_pos h0, hkl] at hsucc
    exact absurd hsucc (by simp)
  | cons k0 rest =>
    simp only [RapidJsonProvider.getValue, if_pos h0, hkl] at hsucc
    by_cases hmem : doc.hasMember k0 = true
    case neg =>
      rw [if_neg hmem] at hsucc
      exact absurd hsucc (by simp)
    rw [if_pos hmem] at hsucc
    set v0 := doc.getMember k0 with hv0
    set vr := if (v0.isObject && !rest.isEmpty) = true
      then traverseLevels v0 k0 rest else (v0, k0) with hvr
    by_cases hfin : (vr.1.isString && vr.2 == key) = true
    case neg =>
      rw [if_neg hfin] at hsucc
      exact absurd hsucc (by simp)
    have hkey : vr.2 = key := by
      have h := hfin
      simp only [Bool.and_eq_true, beq_iff_eq] at h
      exact h.2
    have hval : RapidJsonProvider.getValue initialized doc key
        = (true, [vr.1.getString]) := by
      simp only [RapidJsonProvider.getValue, if_pos h0, hkl, if_pos hmem]
      rw [← hv0, ← hvr, if_pos hfin]
    constructor
    · rw [hval]
      rfl
    intro htoks
    have htoksEq : (getlineTokens key).filter (fun t => !t.isEmpty)
        = k0 :: rest := by
      rw [keyLevelsOf] at hkl
      simp only [List.isEmpty_iff] at hkl
      rw [if_neg htoks] at hkl
      · exact hkl
    have hA := key_tokens_join_length key hk
    rw [htoksEq] at hA ⊢
    -- `joinSegs (k0 :: rest) = k0 ++ slashJoinTail rest`
    have hJ : (joinSegs (k0 :: rest)).length
        = k0.length + (slashJoinTail rest).length := by
      simp [joinSegs]
    by_cases hbr : (v0.isObject && !rest.isEmpty) = true
    · -- loop branch: parsedKey is k0 plus the join of a prefix of rest
      rw [hvr, if_pos hbr] at hkey
      obtain ⟨m, hm1, hm2⟩ := traverseLevels_parsedKey rest v0 k0
      rw [hm2] at hkey
      rcases Nat.lt_or_ge m rest.length with hlt | hge
      · exfalso
        have hstrict := slashJoinTail_take_lt rest m hlt
        have hlen : key.length = k0.length + (slashJoinTail (rest.take m)).length := by
          rw [← hkey]
          simp
        omega
      · have hmEq : m = rest.length := Nat.le_antisymm hm1 hge
        subst hmEq
        rw [List.take_length] at hkey
        rw [← hkey]
        simp [joinSegs]
    · -- no-loop branch: parsedKey stays k0, so rest must be empty
      rw [hvr, if_neg hbr] at hkey
      cases hrest : rest with
      | nil =>
        rw [← hkey]
        simp [joinSegs, slashJoinTail]
      | cons r rs =>
        exfalso
        have hstrict := slashJoinTail_take_lt rest 0
          (by rw [hrest]; simp)
        simp only [List.take_zero, slashJoinTail, List.length_nil] at hstrict
        have hlen : key.length = k0.length := by rw [← hkey]
        omega

/-- Witness for the amended C10: a well-formed single-segment key that
succeeds, with exactly one returned value and join equal to the key. -/
theorem getValue_success_wellformed_key_witness :
    (RapidJsonProvider.getValue true
        (JsonValue.obj [(['a'], JsonValue.str ['x'])]) ['a']).2.length = 1
      ∧ joinSegs ((getlineTokens ['a']).filter (fun t => !t.isEmpty))
          = ['a'] := by
  have h := getValue_success_wellformed_key true
    (JsonValue.obj [(['a'], JsonValue.str ['x'])]) ['a'] (by decide)
  exact ⟨h.1, h.2 (by decide)⟩

end TinyLib
